import Mathlib

/-!
Verification of the evaluation utilities of `colab_evaluation.py`
(tidy-format multi-label evaluation: batch reading, sparsification,
prediction/ground-truth alignment, precision-recall curve building and
compaction, confusion assignment).

Shallow embedding conventions: the streaming iterators of the source are
modelled as finite Lists consumed in order; an inference record is a pair
(identifier, confidence vector); `np.vstack` of the accumulated vectors is
modelled by keeping the accumulated list of rows; real-valued confidences
are modelled as rationals.
-/

namespace ColabEvaluation

/-- Embedding of `batch_inferences` (src/colab_evaluation.py:32-51).
The mutable loop state is the accumulated `seq_ids`, `predictions` and
`counter`; on exhaustion a non-empty remainder is flushed; when the counter
reaches `batch_size` the batch is yielded and the state reset. -/
def batchAux (B : ℕ) : List α → List β → ℕ → List (α × β) → List (List α × List β)
  | seq_ids, predictions, _, [] =>
      if seq_ids.length > 0 then [(seq_ids, predictions)] else []
  | seq_ids, predictions, counter, x :: rest =>
      if counter + 1 = B then
        (seq_ids ++ [x.1], predictions ++ [x.2]) :: batchAux B [] [] 0 rest
      else
        batchAux B (seq_ids ++ [x.1]) (predictions ++ [x.2]) (counter + 1) rest

/-- `batch_inferences(iterator, batch_size)`: yield batches of seq_ids and
prediction matrices from an iterator (modelled as a finite list). -/
def batch_inferences (iterator : List (α × β)) (batch_size : ℕ) :
    List (List α × List β) :=
  batchAux batch_size [] [] 0 iterator

/-- Embedding of `batched_inferences_from_files` (src/colab_evaluation.py:54-63):
for each file a fresh `batch_inferences` generator is created over that
file's records and drained to exhaustion before the next file is opened.
A file is modelled as the list of records its iterator yields. -/
def batched_inferences_from_files (shard_contents : List (List (α × β)))
    (batch_size : ℕ) : List (List α × List β) :=
  shard_contents.flatMap (fun records => batch_inferences records batch_size)

/-- Helper (proof-side only): split a list into consecutive chunks, each of
size `B` except possibly a shorter final one. -/
def chunks (B : ℕ) : List γ → List (List γ)
  | [] => []
  | x :: xs => (x :: xs.take (B - 1)) :: chunks B (xs.drop (B - 1))
termination_by l => l.length
decreasing_by simp [List.length_drop]; omega

/-- Pack a chunk of records into the (ids, rows) shape of a yielded batch. -/
def packBatch (c : List (α × β)) : List α × List β :=
  (c.map Prod.fst, c.map Prod.snd)

theorem chunks_nil : chunks B ([] : List γ) = [] := by
  simp [chunks]

theorem chunks_cons (hB : 0 < B) (x : γ) (xs : List γ) :
    chunks B (x :: xs) = (x :: xs).take B :: chunks B ((x :: xs).drop B) := by
  obtain ⟨n, rfl⟩ := Nat.exists_eq_succ_of_ne_zero hB.ne'
  simp [chunks]

theorem chunks_ne_nil (hB : 0 < B) (l : List γ) (hl : l ≠ []) :
    chunks B l ≠ [] := by
  cases l with
  | nil => exact absurd rfl hl
  | cons x xs => rw [chunks_cons hB]; simp

theorem chunks_rec (hB : 0 < B) {motive : List γ → Prop} (h0 : motive [])
    (h1 : ∀ x : γ, ∀ xs : List γ, motive ((x :: xs).drop B) → motive (x :: xs)) :
    ∀ l : List γ, motive l := by
  suffices h : ∀ n : ℕ, ∀ l : List γ, l.length ≤ n → motive l from
    fun l => h l.length l le_rfl
  intro n
  induction n with
  | zero =>
    intro l hl
    rw [List.length_eq_zero.mp (Nat.le_zero.mp hl)]
    exact h0
  | succ n ih =>
    intro l hl
    cases l with
    | nil => exact h0
    | cons x xs =>
      refine h1 x xs (ih _ ?_)
      simp only [List.length_drop, List.length_cons] at hl ⊢
      omega

theorem chunks_flatten (hB : 0 < B) (l : List γ) :
    (chunks B l).flatten = l := by
  induction l using chunks_rec hB with
  | h0 => simp [chunks_nil]
  | h1 x xs ih => rw [chunks_cons hB, List.flatten_cons, ih, List.take_append_drop]

theorem chunks_cons' (hB : 0 < B) (l : List γ) (hl : l ≠ []) :
    chunks B l = l.take B :: chunks B (l.drop B) := by
  cases l with
  | nil => exact absurd rfl hl
  | cons x xs => exact chunks_cons hB x xs

theorem chunks_short (hB : 0 < B) (l : List γ) (hne : l ≠ [])
    (hlen : l.length ≤ B) : chunks B l = [l] := by
  rw [chunks_cons' hB l hne, List.take_of_length_le hlen,
    List.drop_eq_nil_of_le hlen, chunks_nil]

theorem chunks_full_prefix (hB : 0 < B) (l₁ l₂ : List γ) (h : l₁.length = B) :
    chunks B (l₁ ++ l₂) = l₁ :: chunks B l₂ := by
  have hne : l₁ ++ l₂ ≠ [] := by
    intro hc
    rcases List.append_eq_nil.mp hc with ⟨h1, _⟩
    rw [h1] at h
    simp at h
    omega
  rw [chunks_cons' hB _ hne, ← h, List.take_left, List.drop_left]

theorem chunks_length (hB : 0 < B) (l : List γ) :
    (chunks B l).length = (l.length + B - 1) / B := by
  induction l using chunks_rec hB with
  | h0 =>
    rw [chunks_nil]
    simp [Nat.div_eq_of_lt (show B - 1 < B by omega)]
  | h1 x xs ih =>
    rw [chunks_cons hB]
    simp only [List.length_cons, ih, List.length_drop]
    have h1 : 1 ≤ (x :: xs).length := by simp
    rcases Nat.lt_or_ge (x :: xs).length B with h | h
    · have e1 : (x :: xs).length - B + B - 1 = B - 1 := by omega
      have e2 : (x :: xs).length + B - 1 = ((x :: xs).length - 1) + B := by omega
      simp only [List.length_cons] at e1 e2 h h1 ⊢
      rw [e1, e2, Nat.div_eq_of_lt (show B - 1 < B by omega),
        Nat.add_div_right _ hB, Nat.div_eq_of_lt (show xs.length + 1 - 1 < B by omega)]
    · have e1 : (x :: xs).length - B + B - 1 = (x :: xs).length - 1 := by omega
      have e2 : (x :: xs).length + B - 1 = ((x :: xs).length - 1) + B := by omega
      simp only [List.length_cons] at e1 e2 h h1 ⊢
      rw [e1, e2, Nat.add_div_right _ hB]

theorem chunks_mem_length (hB : 0 < B) (l : List γ) :
    ∀ c ∈ chunks B l, c ≠ [] ∧ c.length ≤ B := by
  induction l using chunks_rec hB with
  | h0 => simp [chunks_nil]
  | h1 x xs ih =>
    rw [chunks_cons hB]
    intro c hc
    rcases List.mem_cons.mp hc with rfl | hc
    · refine ⟨?_, ?_⟩
      · simp [List.take_eq_nil_iff, hB.ne']
      · exact List.length_take_le B (x :: xs)
    · exact ih c hc

theorem chunks_dropLast (hB : 0 < B) (l : List γ) :
    ∀ c ∈ (chunks B l).dropLast, c.length = B := by
  induction l using chunks_rec hB with
  | h0 => simp [chunks_nil]
  | h1 x xs ih =>
    rw [chunks_cons hB]
    intro c hc
    by_cases hd : (x :: xs).drop B = []
    · rw [hd, chunks_nil] at hc
      simp at hc
    · have hne : chunks B ((x :: xs).drop B) ≠ [] := chunks_ne_nil hB _ hd
      rw [List.dropLast_cons_of_ne_nil hne] at hc
      rcases List.mem_cons.mp hc with rfl | hc
      · rw [List.length_take]
        have hlen : B ≤ (x :: xs).length := by
          by_contra hcon
          push_neg at hcon
          exact hd (List.drop_eq_nil_of_le (le_of_lt hcon))
        omega
      · exact ih c hc

theorem chunks_getLast (hB : 0 < B) (l : List γ) :
    ∀ c, (chunks B l).getLast? = some c →
      c.length = if l.length % B = 0 then B else l.length % B := by
  induction l using chunks_rec hB with
  | h0 => simp [chunks_nil]
  | h1 x xs ih =>
    rw [chunks_cons hB]
    intro c hc
    by_cases hd : (x :: xs).drop B = []
    · rw [hd, chunks_nil] at hc
      simp only [List.getLast?_singleton, Option.some.injEq] at hc
      subst hc
      have hlen : (x :: xs).length ≤ B := by
        by_contra hcon
        push_neg at hcon
        have hpos : 0 < ((x :: xs).drop B).length := by
          rw [List.length_drop]
          omega
        exact (List.length_pos.mp hpos) hd
      rw [List.length_take]
      rcases eq_or_lt_of_le hlen with heq | hlt
      · rw [heq, Nat.mod_self]
        simp
      · rw [Nat.mod_eq_of_lt hlt]
        have h1 : 1 ≤ (x :: xs).length := by simp
        rw [if_neg (by omega)]
        omega
    · have hne : chunks B ((x :: xs).drop B) ≠ [] := chunks_ne_nil hB _ hd
      have hstep : ((x :: xs).take B :: chunks B ((x :: xs).drop B)).getLast?
          = (chunks B ((x :: xs).drop B)).getLast? := by
        cases hcc : chunks B ((x :: xs).drop B) with
        | nil => exact absurd hcc hne
        | cons y ys => rw [List.getLast?_cons_cons]
      rw [hstep] at hc
      have hres := ih c hc
      have hBle : B ≤ (x :: xs).length := by
        by_contra hcon
        push_neg at hcon
        exact hd (List.drop_eq_nil_of_le (le_of_lt hcon))
      rw [List.length_drop] at hres
      have hmod : ((x :: xs).length - B) % B = (x :: xs).length % B := by
        conv_rhs => rw [show (x :: xs).length = ((x :: xs).length - B) + B by omega]
        rw [Nat.add_mod_right]
      rw [hmod] at hres
      exact hres

theorem batchAux_eq (hB : 0 < B) (l : List (α × β)) :
    ∀ acc : List (α × β), acc.length < B →
      batchAux B (acc.map Prod.fst) (acc.map Prod.snd) acc.length l
        = (chunks B (acc ++ l)).map packBatch := by
  induction l with
  | nil =>
    intro acc hacc
    simp only [batchAux]
    by_cases h : acc = []
    · subst h
      simp [chunks_nil]
    · rw [if_pos (by simpa using List.length_pos.mpr h)]
      rw [List.append_nil, chunks_short hB acc h (le_of_lt hacc)]
      simp [packBatch]
  | cons x rest ih =>
    intro acc hacc
    simp only [batchAux]
    by_cases h : acc.length + 1 = B
    · rw [if_pos h]
      have e1 : acc.map Prod.fst ++ [x.1] = (acc ++ [x]).map Prod.fst := by simp
      have e2 : acc.map Prod.snd ++ [x.2] = (acc ++ [x]).map Prod.snd := by simp
      have e3 : acc ++ x :: rest = (acc ++ [x]) ++ rest := by simp
      have hfull : (acc ++ [x]).length = B := by
        simpa using h
      rw [e1, e2, e3, chunks_full_prefix hB _ _ hfull, List.map_cons]
      have := ih [] hB
      simp only [List.map_nil, List.length_nil, List.nil_append] at this
      rw [this, packBatch]
    · rw [if_neg h]
      have e1 : acc.map Prod.fst ++ [x.1] = (acc ++ [x]).map Prod.fst := by simp
      have e2 : acc.map Prod.snd ++ [x.2] = (acc ++ [x]).map Prod.snd := by simp
      have e3 : acc.length + 1 = (acc ++ [x]).length := by simp
      have hlt : (acc ++ [x]).length < B := by
        simp only [List.length_append, List.length_singleton]
        omega
      rw [e1, e2, e3, ih (acc ++ [x]) hlt]
      congr 1
      simp

theorem batch_inferences_eq_chunks (hB : 0 < B) (l : List (α × β)) :
    batch_inferences l B = (chunks B l).map packBatch := by
  have := batchAux_eq hB l [] hB
  simpa [batch_inferences] using this

theorem flatMap_filter_not_isEmpty (g : List (α × β) → List δ) (hg : g [] = [])
    (files : List (List (α × β))) :
    (files.filter (fun f => !f.isEmpty)).flatMap g = files.flatMap g := by
  induction files with
  | nil => rfl
  | cons f fs ih =>
    by_cases hf : f = []
    · subst hf
      simp [List.flatMap_cons, hg, ih]
    · rw [List.filter_cons, if_pos (by simp [hf]), List.flatMap_cons,
        List.flatMap_cons, ih]

/-- Claim C3: for every positive batch size B and input of R records,
`batch_inferences` emits exactly ⌈R/B⌉ batches, all of size B except possibly
the last, whose size is R mod B (or B when R mod B = 0); when R = 0 it emits
zero batches. -/
theorem batch_inferences_count_and_sizes (l : List (α × β)) (B : ℕ) (hB : 0 < B) :
    (batch_inferences l B).length = (l.length + B - 1) / B ∧
    (∀ b ∈ (batch_inferences l B).dropLast, b.1.length = B) ∧
    (∀ b, (batch_inferences l B).getLast? = some b →
      b.1.length = if l.length % B = 0 then B else l.length % B) ∧
    (l = [] → batch_inferences l B = []) := by
  rw [batch_inferences_eq_chunks hB]
  refine ⟨?_, ?_, ?_, ?_⟩
  · rw [List.length_map, chunks_length hB]
  · intro b hb
    rw [← List.map_dropLast] at hb
    obtain ⟨c, hc, rfl⟩ := List.mem_map.mp hb
    simp only [packBatch, List.length_map]
    exact chunks_dropLast hB l c hc
  · intro b hb
    rw [List.getLast?_map] at hb
    cases hgl : (chunks B l).getLast? with
    | none => rw [hgl] at hb; simp at hb
    | some c =>
      rw [hgl] at hb
      simp only [Option.map_some', Option.some.injEq] at hb
      rw [← hb]
      simp only [packBatch, List.length_map]
      exact chunks_getLast hB l c hgl
  · intro h
    subst h
    rw [chunks_nil]
    rfl

/-- Witness for C3: three records with batch size two give two batches,
the last of size one (3 mod 2). -/
theorem batch_inferences_count_and_sizes_witness :
    (batch_inferences [((0 : ℕ), (5 : ℕ)), (1, 6), (2, 7)] 2).length = 2 ∧
    (∀ b, (batch_inferences [((0 : ℕ), (5 : ℕ)), (1, 6), (2, 7)] 2).getLast?
      = some b → b.1.length = 1) := by
  refine ⟨?_, ?_⟩
  · exact ((batch_inferences_count_and_sizes
      [((0 : ℕ), (5 : ℕ)), (1, 6), (2, 7)] 2 (by decide)).1).trans (by decide)
  · intro b hb
    exact (((batch_inferences_count_and_sizes
      [((0 : ℕ), (5 : ℕ)), (1, 6), (2, 7)] 2 (by decide)).2.2.1) b hb).trans
      (by decide)

/-- Claim C10: every yielded batch is a pair (identifiers, matrix) with as
many identifiers as matrix rows, all drawn in input order from the same
records, and every batch is non-empty with at most B records. -/
theorem batch_inferences_shape_invariant (l : List (α × β)) (B : ℕ) (hB : 0 < B) :
    (∀ b ∈ batch_inferences l B,
      b.1.length = b.2.length ∧ 0 < b.1.length ∧ b.1.length ≤ B) ∧
    (batch_inferences l B).flatMap (fun b => b.1.zip b.2) = l := by
  rw [batch_inferences_eq_chunks hB]
  constructor
  · intro b hb
    obtain ⟨c, hc, rfl⟩ := List.mem_map.mp hb
    obtain ⟨hne, hle⟩ := chunks_mem_length hB l c hc
    simp only [packBatch, List.length_map]
    exact ⟨trivial, List.length_pos.mpr hne, hle⟩
  · have hzip : ∀ c : List (α × β), (packBatch c).1.zip (packBatch c).2 = c :=
      fun c => Eq.symm (List.zip_of_prod rfl rfl)
    rw [List.flatMap_def, List.map_map]
    have : ((fun b : List α × List β => b.1.zip b.2) ∘ packBatch) = id := by
      funext c
      exact hzip c
    rw [this, List.map_id]
    exact chunks_flatten hB l

/-- Witness for C10 at a concrete input. -/
theorem batch_inferences_shape_invariant_witness :
    (batch_inferences [((0 : ℕ), (5 : ℕ)), (1, 6), (2, 7)] 2).flatMap
      (fun b => b.1.zip b.2) = [((0 : ℕ), (5 : ℕ)), (1, 6), (2, 7)] :=
  (batch_inferences_shape_invariant [((0 : ℕ), (5 : ℕ)), (1, 6), (2, 7)] 2
    (by decide)).2

/-- Claim C2 counterexample: with two one-record files and batch size two,
the partial batch of the first file IS flushed at the file boundary (two
batches of size one are emitted), whereas carryover across the boundary
would produce one full batch of size two as on the concatenated stream. -/
theorem batched_files_no_carryover_counterexample :
    batched_inferences_from_files [[((0 : ℕ), (5 : ℕ))], [(1, 6)]] 2
      = [([0], [5]), ([1], [6])] ∧
    batch_inferences ([[((0 : ℕ), (5 : ℕ))], [(1, 6)]] : List (List (ℕ × ℕ))).flatten 2
      = [([0, 1], [5, 6])] ∧
    batched_inferences_from_files [[((0 : ℕ), (5 : ℕ))], [(1, 6)]] 2
      ≠ batch_inferences ([[((0 : ℕ), (5 : ℕ))], [(1, 6)]] : List (List (ℕ × ℕ))).flatten 2 := by
  refine ⟨by decide, by decide, by decide⟩

/-- Claim C2 (amended): each file is batched independently by a fresh batch
counter, so a file ending mid-batch flushes its partial batch at the file
boundary; a file yielding zero records still contributes nothing, and
concatenating all emitted batches in order recovers the full record stream
in file order. -/
theorem batched_files_per_file_batching (files : List (List (α × β))) (B : ℕ)
    (hB : 0 < B) :
    batched_inferences_from_files (files.filter (fun f => !f.isEmpty)) B
      = batched_inferences_from_files files B ∧
    batched_inferences_from_files files B
      = files.flatMap (fun f => (chunks B f).map packBatch) ∧
    (batched_inferences_from_files files B).flatMap (fun b => b.1.zip b.2)
      = files.flatten := by
  have heq : batched_inferences_from_files files B
      = files.flatMap (fun f => (chunks B f).map packBatch) := by
    unfold batched_inferences_from_files
    congr 1
    funext f
    exact batch_inferences_eq_chunks hB f
  refine ⟨?_, heq, ?_⟩
  · exact flatMap_filter_not_isEmpty _ rfl files
  · clear heq
    unfold batched_inferences_from_files
    induction files with
    | nil => rfl
    | cons f fs ih =>
      rw [List.flatMap_cons, List.flatMap_append, ih, List.flatten_cons]
      congr 1
      exact (batch_inferences_shape_invariant f B hB).2

/-- Witness for the amended C2: an empty middle file neither breaks batching
nor contributes records. -/
theorem batched_files_per_file_batching_witness :
    batched_inferences_from_files
        ([[((0 : ℕ), (5 : ℕ))], [], [(1, 6)]].filter (fun f => !f.isEmpty)) 2
      = batched_inferences_from_files [[((0 : ℕ), (5 : ℕ))], [], [(1, 6)]] 2 :=
  (batched_files_per_file_batching [[((0 : ℕ), (5 : ℕ))], [], [(1, 6)]] 2
    (by decide)).1

/-- A tidy prediction row, one row of the dataframe built by the Sparsifier:
`{"up_id": ..., "label": ..., "value": ...}` (src/colab_evaluation.py:91). -/
structure TidyPred where
  up_id : String
  label : String
  value : ℚ
deriving DecidableEq

/-- Embedding of `_make_tidy_df_from_seq_names_and_prediction_array`
(src/colab_evaluation.py:72-91): for each example index i, and each vocab
index with prediction strictly above the threshold (np.argwhere walks the
indices in ascending order), emit one tidy row. Out-of-range indexing
(which would fault in the source) is totalized with `getD`; the theorems
assume well-formed shapes. -/
def make_tidy_df_from_seq_names_and_prediction_array
    (sequence_names : List String) (predictions_array : List (List ℚ))
    (vocab : List String) (min_decision_threshold : ℚ) : List TidyPred :=
  (List.range sequence_names.length).flatMap (fun i =>
    ((List.range (predictions_array.getD i []).length).filter
        (fun vocab_index =>
          decide (min_decision_threshold
            < (predictions_array.getD i []).getD vocab_index 0))).map
      (fun vocab_index =>
        ⟨sequence_names.getD i "", vocab.getD vocab_index "",
          (predictions_array.getD i []).getD vocab_index 0⟩))

/-- Claim C1: the Sparsifier emits a tidy row exactly for those pairs (i, v)
with M[i,v] > θ (strict inequality): every emitted row has value > θ, and
the emitted rows are exactly one row per above-threshold entry, in example
order then ascending vocabulary order, carrying the example's identifier,
the vocabulary label at that column, and the matrix value. -/
theorem sparsifier_rows_iff_above_threshold
    (ids : List String) (M : List (List ℚ)) (vocab : List String) (θ : ℚ)
    (hM : M.length = ids.length)
    (hrow : ∀ row ∈ M, row.length = vocab.length) :
    (∀ r ∈ make_tidy_df_from_seq_names_and_prediction_array ids M vocab θ,
      θ < r.value) ∧
    make_tidy_df_from_seq_names_and_prediction_array ids M vocab θ
      = (List.range ids.length).flatMap (fun i =>
          ((List.range vocab.length).filter
              (fun v => decide (θ < (M.getD i []).getD v 0))).map
            (fun v => ⟨ids.getD i "", vocab.getD v "",
              (M.getD i []).getD v 0⟩)) := by
  constructor
  · intro r hr
    simp only [make_tidy_df_from_seq_names_and_prediction_array,
      List.mem_flatMap, List.mem_map, List.mem_filter, List.mem_range] at hr
    obtain ⟨i, hi, v, ⟨hv, hcond⟩, rfl⟩ := hr
    exact of_decide_eq_true hcond
  · unfold make_tidy_df_from_seq_names_and_prediction_array List.flatMap
    congr 1
    apply List.map_congr_left
    intro i hi
    have hi' : i < M.length := by
      rw [hM]
      exact List.mem_range.mp hi
    have hlen : (M.getD i []).length = vocab.length := by
      rw [List.getD_eq_getElem M [] hi']
      exact hrow _ (List.getElem_mem hi')
    rw [hlen]

/-- Witness for C1: the spec's scenario scaled by ten (kernel evaluation of
rationals needs arithmetic-free literals) — vocabulary [A,B,C], one example
seq1 with confidences [9, 0, 5] and threshold 3 yields rows (seq1,A,9) and
(seq1,C,5). -/
theorem sparsifier_rows_iff_above_threshold_witness :
    (∀ r ∈ make_tidy_df_from_seq_names_and_prediction_array ["seq1"]
        [[9, 0, 5]] ["A", "B", "C"] 3, (3 : ℚ) < r.value) ∧
    make_tidy_df_from_seq_names_and_prediction_array ["seq1"]
        [[9, 0, 5]] ["A", "B", "C"] 3
      = [⟨"seq1", "A", 9⟩, ⟨"seq1", "C", 5⟩] :=
  ⟨(sparsifier_rows_iff_above_threshold ["seq1"] [[9, 0, 5]]
      ["A", "B", "C"] 3 (by decide) (by decide)).1,
    by decide⟩

/-- A tidy ground-truth row: `{"up_id": ..., "label": ..., "gt": True}`
(src/colab_evaluation.py:138); the gt column is constantly True. -/
structure TidyGt where
  up_id : String
  label : String
deriving DecidableEq

/-- A row of the outer join before `fillna`: the value column is absent
(NaN) for ground-truth-only keys, the gt column is absent (NaN) for
prediction-only keys. -/
structure JoinedRow where
  up_id : String
  label : String
  value : Option ℚ
  gt : Option Bool
deriving DecidableEq

/-- A row of the combined dataframe after `fillna(False)`: a missing value
becomes the false/zero sentinel, a missing gt becomes False. -/
structure CombinedRow where
  up_id : String
  label : String
  value : ℚ
  gt : Bool
deriving DecidableEq

/-- The join key of a prediction row: `["label", "up_id"]` columns. -/
def TidyPred.key (p : TidyPred) : String × String := (p.label, p.up_id)

/-- The join key of a ground-truth row. -/
def TidyGt.key (g : TidyGt) : String × String := (g.label, g.up_id)

/-- The join key of a combined row. -/
def CombinedRow.key (r : CombinedRow) : String × String := (r.label, r.up_id)

/-- Embedding of the pandas outer merge on `["label", "up_id"]` used by
`merge_predictions_and_ground_truth` (src/colab_evaluation.py:143-147):
every matching (left row, right row) pair produces one row, a left row
without a match keeps NaN in the right-only column `gt`, and a right row
without a match keeps NaN in the left-only column `value`. (Pandas orders
an outer join by sorted key; row order is irrelevant to every claim and the
model keeps left rows first, then unmatched right rows.) -/
def outer_merge (predictions_df : List TidyPred) (ground_truth_df : List TidyGt) :
    List JoinedRow :=
  predictions_df.flatMap (fun p =>
    let ms := ground_truth_df.filter (fun g => decide (g.key = p.key))
    if ms.isEmpty then [⟨p.up_id, p.label, some p.value, none⟩]
    else ms.map (fun _ => ⟨p.up_id, p.label, some p.value, some true⟩))
  ++ (ground_truth_df.filter
        (fun g => !predictions_df.any (fun p => decide (p.key = g.key)))).map
      (fun g => ⟨g.up_id, g.label, none, some true⟩)

/-- `combined.fillna(False)` (src/colab_evaluation.py:148): absent value
becomes the zero/false sentinel, absent gt becomes False. -/
def fillna_false (rows : List JoinedRow) : List CombinedRow :=
  rows.map (fun r => ⟨r.up_id, r.label, r.value.getD 0, r.gt.getD false⟩)

/-- Embedding of `merge_predictions_and_ground_truth`
(src/colab_evaluation.py:141-149): outer join, then fill empty cells with
False. -/
def merge_predictions_and_ground_truth (predictions_df : List TidyPred)
    (ground_truth_df : List TidyGt) : List CombinedRow :=
  fillna_false (outer_merge predictions_df ground_truth_df)

/-- The join key of a pre-fill joined row. -/
def JoinedRow.key (j : JoinedRow) : String × String := (j.label, j.up_id)

theorem filter_key_nil_iff {α' κ : Type} [DecidableEq κ] (f : α' → κ)
    (l : List α') (k : κ) :
    l.filter (fun x => decide (f x = k)) = [] ↔ k ∉ l.map f := by
  rw [List.filter_eq_nil_iff]
  simp only [decide_eq_true_eq, List.mem_map]
  constructor
  · rintro h ⟨x, hx, rfl⟩
    exact h x hx rfl
  · intro h x hx hfx
    exact h ⟨x, hx, hfx⟩

theorem length_filter_map_key {α' κ : Type} [DecidableEq κ] (f : α' → κ)
    (l : List α') (h : (l.map f).Nodup) (k : κ) (hk : k ∈ l.map f) :
    (l.filter (fun x => decide (f x = k))).length = 1 := by
  induction l with
  | nil => simp at hk
  | cons a as ih =>
    rw [List.map_cons, List.nodup_cons] at h
    rw [List.filter_cons]
    by_cases hak : f a = k
    · rw [if_pos (by simp [hak])]
      have hnil : as.filter (fun x => decide (f x = k)) = [] := by
        rw [filter_key_nil_iff]
        rw [← hak]
        exact h.1
      rw [hnil]
      rfl
    · rw [if_neg (by simp [hak])]
      refine ih h.2 ?_
      rcases List.mem_map.mp hk with ⟨x, hx, hfx⟩
      rcases List.mem_cons.mp hx with rfl | hx'
      · exact absurd hfx hak
      · exact List.mem_map.mpr ⟨x, hx', hfx⟩

theorem any_key_eq {α' κ : Type} [DecidableEq κ] (f : α' → κ) (l : List α')
    (k : κ) : l.any (fun x => decide (f x = k)) = decide (k ∈ l.map f) := by
  by_cases h : k ∈ l.map f
  · rw [decide_eq_true h]
    rw [List.any_eq_true]
    rcases List.mem_map.mp h with ⟨x, hx, hfx⟩
    exact ⟨x, hx, by simp [hfx]⟩
  · rw [decide_eq_false h]
    rw [Bool.eq_false_iff]
    intro hc
    rcases List.any_eq_true.mp hc with ⟨x, hx, hfx⟩
    exact h (List.mem_map.mpr ⟨x, hx, of_decide_eq_true hfx⟩)

theorem fillna_map_key (rows : List JoinedRow) :
    (fillna_false rows).map CombinedRow.key = rows.map JoinedRow.key := by
  unfold fillna_false
  rw [List.map_map]
  rfl

theorem outer_merge_map_key (preds : List TidyPred) (gts : List TidyGt)
    (hg : (gts.map TidyGt.key).Nodup) :
    (outer_merge preds gts).map JoinedRow.key
      = preds.map TidyPred.key
        ++ (gts.map TidyGt.key).filter
            (fun k => !decide (k ∈ preds.map TidyPred.key)) := by
  unfold outer_merge
  rw [List.map_append]
  congr 1
  · induction preds with
    | nil => rfl
    | cons p ps ih =>
      rw [List.flatMap_cons, List.map_append, ih, List.map_cons]
      by_cases hms : (gts.filter (fun g => decide (g.key = p.key))).isEmpty
      · simp only [hms, if_pos]
        rfl
      · rw [if_neg (by simp [hms])]
        rw [List.map_map]
        have hne : gts.filter (fun g => decide (g.key = p.key)) ≠ [] := by
          intro hc
          rw [hc] at hms
          exact hms rfl
        have hmem : p.key ∈ gts.map TidyGt.key := by
          rcases List.exists_mem_of_ne_nil _ hne with ⟨g, hgmem⟩
          rcases List.mem_filter.mp hgmem with ⟨hgin, hgeq⟩
          exact List.mem_map.mpr ⟨g, hgin, of_decide_eq_true hgeq⟩
        have h1 := length_filter_map_key TidyGt.key gts hg p.key hmem
        rcases List.length_eq_one.mp h1 with ⟨g, hgg⟩
        rw [hgg]
        rfl
  · rw [List.filter_map, List.map_map]
    have hfe : List.filter (fun g => !preds.any fun p => decide (p.key = g.key)) gts
        = List.filter
            ((fun k => !decide (k ∈ List.map TidyPred.key preds)) ∘ TidyGt.key) gts := by
      apply List.filter_congr
      intro g _
      show (!(preds.any fun p => decide (p.key = g.key)))
        = !decide (g.key ∈ preds.map TidyPred.key)
      rw [any_key_eq TidyPred.key preds g.key]
      exact congrArg Bool.not (decide_eq_decide.mpr Iff.rfl)
    rw [hfe]
    rfl

theorem merge_map_key (preds : List TidyPred) (gts : List TidyGt)
    (hg : (gts.map TidyGt.key).Nodup) :
    (merge_predictions_and_ground_truth preds gts).map CombinedRow.key
      = preds.map TidyPred.key
        ++ (gts.map TidyGt.key).filter
            (fun k => !decide (k ∈ preds.map TidyPred.key)) := by
  unfold merge_predictions_and_ground_truth
  rw [fillna_map_key, outer_merge_map_key preds gts hg]

/-- Claim C4: for prediction and ground-truth tables with at most one row
per (example, label) key, the outer join yields every key of either source
exactly once, its row count is the cardinality of the union of the two key
sets, and the post-join fill gives gt=False exactly to the keys absent from
ground truth and value=0 to the keys absent from predictions. -/
theorem aligner_outer_join_exactly_once
    (preds : List TidyPred) (gts : List TidyGt)
    (hp : (preds.map TidyPred.key).Nodup)
    (hg : (gts.map TidyGt.key).Nodup) :
    ((merge_predictions_and_ground_truth preds gts).map CombinedRow.key).Nodup ∧
    (∀ k : String × String,
      k ∈ (merge_predictions_and_ground_truth preds gts).map CombinedRow.key
        ↔ (k ∈ preds.map TidyPred.key ∨ k ∈ gts.map TidyGt.key)) ∧
    (merge_predictions_and_ground_truth preds gts).length
      = ((preds.map TidyPred.key).toFinset ∪ (gts.map TidyGt.key).toFinset).card ∧
    (∀ r ∈ merge_predictions_and_ground_truth preds gts,
      (r.key ∉ gts.map TidyGt.key → r.gt = false) ∧
      (r.key ∈ gts.map TidyGt.key → r.gt = true) ∧
      (r.key ∉ preds.map TidyPred.key → r.value = 0)) := by
  have hkeys := merge_map_key preds gts hg
  have hnodup :
      ((merge_predictions_and_ground_truth preds gts).map CombinedRow.key).Nodup := by
    rw [hkeys, List.nodup_append]
    refine ⟨hp, hg.filter _, ?_⟩
    intro k hkA hkF
    rcases List.mem_filter.mp hkF with ⟨_, hcond⟩
    simp only [Bool.not_eq_true', decide_eq_false_iff_not] at hcond
    exact hcond hkA
  have hmem : ∀ k : String × String,
      k ∈ (merge_predictions_and_ground_truth preds gts).map CombinedRow.key
        ↔ (k ∈ preds.map TidyPred.key ∨ k ∈ gts.map TidyGt.key) := by
    intro k
    rw [hkeys, List.mem_append, List.mem_filter]
    simp only [Bool.not_eq_true', decide_eq_false_iff_not]
    constructor
    · rintro (h | ⟨h, _⟩)
      · exact Or.inl h
      · exact Or.inr h
    · rintro (h | h)
      · exact Or.inl h
      · by_cases hA : k ∈ preds.map TidyPred.key
        · exact Or.inl hA
        · exact Or.inr ⟨h, hA⟩
  refine ⟨hnodup, hmem, ?_, ?_⟩
  · have hlen : (merge_predictions_and_ground_truth preds gts).length
        = ((merge_predictions_and_ground_truth preds gts).map CombinedRow.key).length :=
      (List.length_map _ _).symm
    rw [hlen, ← List.toFinset_card_of_nodup hnodup]
    congr 1
    ext k
    rw [List.mem_toFinset, hmem k, Finset.mem_union, List.mem_toFinset,
      List.mem_toFinset]
  · intro r hr
    unfold merge_predictions_and_ground_truth fillna_false at hr
    rcases List.mem_map.mp hr with ⟨j, hj, rfl⟩
    unfold outer_merge at hj
    rcases List.mem_append.mp hj with hjl | hjr
    · rcases List.mem_flatMap.mp hjl with ⟨p, hpmem, hjc⟩
      simp only at hjc
      have hkeyA :
          (p.label, p.up_id) ∈ preds.map TidyPred.key :=
        List.mem_map.mpr ⟨p, hpmem, rfl⟩
      by_cases hms : (gts.filter (fun g => decide (g.key = p.key))).isEmpty
      · rw [if_pos hms] at hjc
        rcases List.mem_singleton.mp hjc with rfl
        have hnotB : p.key ∉ gts.map TidyGt.key := by
          rw [← filter_key_nil_iff TidyGt.key gts p.key]
          exact List.isEmpty_iff.mp hms
        refine ⟨fun _ => rfl, fun hB => absurd hB hnotB, fun hA => absurd hkeyA hA⟩
      · rw [if_neg (by simp [hms])] at hjc
        rcases List.mem_map.mp hjc with ⟨g0, _, rfl⟩
        have hinB : p.key ∈ gts.map TidyGt.key := by
          have hne : gts.filter (fun g => decide (g.key = p.key)) ≠ [] := by
            intro hc
            rw [hc] at hms
            exact hms rfl
          rcases List.exists_mem_of_ne_nil _ hne with ⟨g, hgmem⟩
          rcases List.mem_filter.mp hgmem with ⟨hgin, hgeq⟩
          exact List.mem_map.mpr ⟨g, hgin, of_decide_eq_true hgeq⟩
        exact ⟨fun hB => absurd hinB hB, fun _ => rfl, fun hA => absurd hkeyA hA⟩
    · rcases List.mem_map.mp hjr with ⟨g, hgmem, rfl⟩
      rcases List.mem_filter.mp hgmem with ⟨hgin, hcond⟩
      have hinB : (g.label, g.up_id) ∈ gts.map TidyGt.key :=
        List.mem_map.mpr ⟨g, hgin, rfl⟩
      refine ⟨fun hB => absurd hinB hB, fun _ => rfl, fun _ => rfl⟩

/-- Witness for C4: the spec's scenario — ground truth {seq1:[A]} and
predictions {(seq1,A,9),(seq1,B,2)} align to exactly two rows, the key set
union has two elements, and row (seq1,B) gets gt=False. -/
theorem aligner_outer_join_exactly_once_witness :
    (merge_predictions_and_ground_truth
        [⟨"seq1", "A", 9⟩, ⟨"seq1", "B", 2⟩] [⟨"seq1", "A"⟩]).length
      = (([⟨"seq1", "A", 9⟩, ⟨"seq1", "B", 2⟩].map TidyPred.key).toFinset
          ∪ ([(⟨"seq1", "A"⟩ : TidyGt)].map TidyGt.key).toFinset).card ∧
    (merge_predictions_and_ground_truth
        [⟨"seq1", "A", 9⟩, ⟨"seq1", "B", 2⟩] [⟨"seq1", "A"⟩]).length = 2 :=
  ⟨(aligner_outer_join_exactly_once
      [⟨"seq1", "A", 9⟩, ⟨"seq1", "B", 2⟩] [⟨"seq1", "A"⟩]
      (by decide) (by decide)).2.2.1,
    by decide⟩

/-- A row of the confusion dataframe: the combined columns plus the three
assignment flags (src/colab_evaluation.py:224-227). `fn` is spelled
`fneg` because the tidy column name is kept in the doc string only. -/
structure ConfusionRow where
  up_id : String
  label : String
  value : ℚ
  gt : Bool
  tp : Bool
  fp : Bool
  fneg : Bool
deriving DecidableEq

/-- Embedding of `assign_tp_fp_fn` (src/colab_evaluation.py:219-228):
merge, then per row set tp := (gt == True) and (value > threshold),
fp := (gt == False) and (value > threshold),
fn := (gt == True) and (value < threshold). -/
def assign_tp_fp_fn (predictions_df : List TidyPred)
    (ground_truth_df : List TidyGt) (threshold : ℚ) : List ConfusionRow :=
  (merge_predictions_and_ground_truth predictions_df ground_truth_df).map
    (fun r =>
      ⟨r.up_id, r.label, r.value, r.gt,
        (r.gt == true) && decide (threshold < r.value),
        (r.gt == false) && decide (threshold < r.value),
        (r.gt == true) && decide (r.value < threshold)⟩)

/-- Claim C5: on every row of the confusion assignment, tp holds iff gt is
true and value > τ, fp iff gt is false and value > τ, fn iff gt is true and
value < τ; the three flags are mutually exclusive, and a row with value
exactly τ has tp=False and fn=False regardless of gt. -/
theorem confusion_assignment_flags (preds : List TidyPred) (gts : List TidyGt)
    (τ : ℚ) :
    ∀ row ∈ assign_tp_fp_fn preds gts τ,
      (row.tp = true ↔ (row.gt = true ∧ τ < row.value)) ∧
      (row.fp = true ↔ (row.gt = false ∧ τ < row.value)) ∧
      (row.fneg = true ↔ (row.gt = true ∧ row.value < τ)) ∧
      ¬(row.tp = true ∧ row.fp = true) ∧
      ¬(row.tp = true ∧ row.fneg = true) ∧
      ¬(row.fp = true ∧ row.fneg = true) ∧
      (row.value = τ → row.tp = false ∧ row.fneg = false) := by
  intro row hrow
  rcases List.mem_map.mp hrow with ⟨r, _, rfl⟩
  refine ⟨by simp, by simp, by simp, ?_, ?_, ?_, ?_⟩
  · rintro ⟨h1, h2⟩
    simp only [Bool.and_eq_true, beq_iff_eq, decide_eq_true_eq] at h1 h2
    exact Bool.noConfusion (h1.1.symm.trans h2.1)
  · rintro ⟨h1, h2⟩
    simp only [Bool.and_eq_true, beq_iff_eq, decide_eq_true_eq] at h1 h2
    exact absurd h1.2 (lt_asymm h2.2)
  · rintro ⟨h1, h2⟩
    simp only [Bool.and_eq_true, beq_iff_eq, decide_eq_true_eq] at h1 h2
    exact Bool.noConfusion (h2.1.symm.trans h1.1)
  · intro hvt
    have hv : r.value = τ := hvt
    constructor <;> simp [hv, lt_irrefl]

/-- Witness for C5: the spec's tie scenario — aligned row (seq1,A,value 5,
gt True) at τ = 5 has tp=False and fn=False. -/
theorem confusion_assignment_flags_witness :
    (⟨"seq1", "A", 5, true, false, false, false⟩ : ConfusionRow).tp = false ∧
    (⟨"seq1", "A", 5, true, false, false, false⟩ : ConfusionRow).fneg = false :=
  (confusion_assignment_flags [⟨"seq1", "A", 5⟩] [⟨"seq1", "A"⟩] 5
    ⟨"seq1", "A", 5, true, false, false, false⟩
    (by decide)).2.2.2.2.2.2 (by decide)


/-- Componentwise zip of the three parallel curve arrays
(precision, recall, threshold) into one list of points. -/
def zip3 : List α → List β → List γ → List (α × β × γ)
  | a :: as, b :: bs, c :: cs => (a, b, c) :: zip3 as bs cs
  | _, _, _ => []

/-- Split a list of curve points back into three parallel arrays. -/
def unzip3 : List (α × β × γ) → List α × List β × List γ
  | [] => ([], [], [])
  | (a, b, c) :: rest =>
      ((unzip3 rest).1.cons a, (unzip3 rest).2.1.cons b, (unzip3 rest).2.2.cons c)

theorem zip3_unzip3 (l : List (α × β × γ)) :
    zip3 (unzip3 l).1 (unzip3 l).2.1 (unzip3 l).2.2 = l := by
  induction l with
  | nil => rfl
  | cons x rest ih =>
    obtain ⟨a, b, c⟩ := x
    simp only [unzip3, List.cons]
    rw [zip3, ih]

theorem unzip3_lengths (l : List (α × β × γ)) :
    (unzip3 l).1.length = l.length ∧ (unzip3 l).2.1.length = l.length ∧
      (unzip3 l).2.2.length = l.length := by
  induction l with
  | nil => exact ⟨rfl, rfl, rfl⟩
  | cons x rest ih =>
    obtain ⟨a, b, c⟩ := x
    simp only [unzip3, List.length_cons]
    exact ⟨by rw [ih.1], by rw [ih.2.1], by rw [ih.2.2]⟩

/-- One iteration of the loop of `filter_pr_curve`
(src/colab_evaluation.py:205-214): the state is the pair
(last kept (precision, recall) or None, output rows so far); a point is
appended when no point was kept yet or the absolute difference from the
last kept precision or recall reaches the resolution. -/
def filterStep (resolution : ℚ)
    (st : Option (ℚ × ℚ) × List (ℚ × ℚ × ℚ)) (pt : ℚ × ℚ × ℚ) :
    Option (ℚ × ℚ) × List (ℚ × ℚ × ℚ) :=
  match st.1 with
  | none => (some (pt.1, pt.2.1), st.2 ++ [pt])
  | some lk =>
      if resolution ≤ |pt.1 - lk.1| ∨ resolution ≤ |pt.2.1 - lk.2| then
        (some (pt.1, pt.2.1), st.2 ++ [pt])
      else st

/-- Embedding of `filter_pr_curve` (src/colab_evaluation.py:198-216):
fold the loop over the points of the three parallel equal-length arrays
(the source indexes all three by the same i) and return the kept points as
three arrays. -/
def filter_pr_curve (precisions recalls thresholds : List ℚ)
    (resolution : ℚ) : List ℚ × List ℚ × List ℚ :=
  unzip3 ((zip3 precisions recalls thresholds).foldl
    (filterStep resolution) (none, [])).2

/-- Modelled from the spec (curve compaction rule, §4.6): after some point
was kept, keep a later point iff its precision or recall differs from the
last KEPT point by at least the resolution. Reference recursion for the
refinement proof about the loop in `filter_pr_curve`. -/
def filterPrKeep (resolution : ℚ) : (ℚ × ℚ) → List (ℚ × ℚ × ℚ) → List (ℚ × ℚ × ℚ)
  | _, [] => []
  | lk, pt :: rest =>
      if resolution ≤ |pt.1 - lk.1| ∨ resolution ≤ |pt.2.1 - lk.2| then
        pt :: filterPrKeep resolution (pt.1, pt.2.1) rest
      else filterPrKeep resolution lk rest

/-- Modelled from the spec (curve compaction rule, §4.6): the first point is
always kept, and each later point is kept iff its precision or recall
differs from the last kept point by at least the resolution. -/
def filterPrSpec (resolution : ℚ) : List (ℚ × ℚ × ℚ) → List (ℚ × ℚ × ℚ)
  | [] => []
  | pt :: rest => pt :: filterPrKeep resolution (pt.1, pt.2.1) rest

theorem filterStep_none (res : ℚ) (acc : List (ℚ × ℚ × ℚ)) (pt : ℚ × ℚ × ℚ) :
    filterStep res (none, acc) pt = (some (pt.1, pt.2.1), acc ++ [pt]) := rfl

theorem filterStep_some (res : ℚ) (lk : ℚ × ℚ) (acc : List (ℚ × ℚ × ℚ))
    (pt : ℚ × ℚ × ℚ) :
    filterStep res (some lk, acc) pt
      = if res ≤ |pt.1 - lk.1| ∨ res ≤ |pt.2.1 - lk.2| then
          (some (pt.1, pt.2.1), acc ++ [pt])
        else (some lk, acc) := rfl

theorem foldl_filterStep_some (res : ℚ) (pts : List (ℚ × ℚ × ℚ)) :
    ∀ (lk : ℚ × ℚ) (acc : List (ℚ × ℚ × ℚ)),
      (pts.foldl (filterStep res) (some lk, acc)).2
        = acc ++ filterPrKeep res lk pts := by
  induction pts with
  | nil =>
    intro lk acc
    simp [filterPrKeep]
  | cons pt rest ih =>
    intro lk acc
    rw [List.foldl_cons, filterStep_some, filterPrKeep]
    by_cases hc : res ≤ |pt.1 - lk.1| ∨ res ≤ |pt.2.1 - lk.2|
    · rw [if_pos hc, if_pos hc, ih, List.append_assoc]
      rfl
    · rw [if_neg hc, if_neg hc, ih]

theorem foldl_filterStep_none (res : ℚ) (pts : List (ℚ × ℚ × ℚ))
    (acc : List (ℚ × ℚ × ℚ)) :
    (pts.foldl (filterStep res) (none, acc)).2 = acc ++ filterPrSpec res pts := by
  cases pts with
  | nil => simp [filterPrSpec]
  | cons pt rest =>
    rw [List.foldl_cons, filterStep_none, filterPrSpec,
      foldl_filterStep_some, List.append_assoc]
    rfl

theorem filter_pr_curve_eq_spec (ps rs ts : List ℚ) (res : ℚ) :
    filter_pr_curve ps rs ts res = unzip3 (filterPrSpec res (zip3 ps rs ts)) := by
  unfold filter_pr_curve
  rw [foldl_filterStep_none, List.nil_append]

/-- Two (precision, recall) pairs differ perceptibly: the precision or the
recall moved by at least the resolution. -/
def farApart (res : ℚ) (a b : ℚ × ℚ) : Prop :=
  res ≤ |b.1 - a.1| ∨ res ≤ |b.2 - a.2|

/-- The (precision, recall) components of a curve point. -/
def projPR (pt : ℚ × ℚ × ℚ) : ℚ × ℚ := (pt.1, pt.2.1)

theorem filterPrKeep_sublist (res : ℚ) (pts : List (ℚ × ℚ × ℚ)) :
    ∀ lk, (filterPrKeep res lk pts).Sublist pts := by
  induction pts with
  | nil => intro lk; rw [filterPrKeep]
  | cons pt rest ih =>
    intro lk
    rw [filterPrKeep]
    by_cases hc : res ≤ |pt.1 - lk.1| ∨ res ≤ |pt.2.1 - lk.2|
    · rw [if_pos hc]
      exact List.Sublist.cons₂ pt (ih _)
    · rw [if_neg hc]
      exact List.Sublist.cons pt (ih lk)

theorem filterPrSpec_sublist (res : ℚ) (pts : List (ℚ × ℚ × ℚ)) :
    (filterPrSpec res pts).Sublist pts := by
  cases pts with
  | nil => rw [filterPrSpec]
  | cons pt rest =>
    rw [filterPrSpec]
    exact List.Sublist.cons₂ pt (filterPrKeep_sublist res rest _)

theorem filterPrKeep_chain (res : ℚ) (pts : List (ℚ × ℚ × ℚ)) :
    ∀ lk, List.Chain (farApart res) lk ((filterPrKeep res lk pts).map projPR) := by
  induction pts with
  | nil => intro lk; rw [filterPrKeep]; exact List.Chain.nil
  | cons pt rest ih =>
    intro lk
    rw [filterPrKeep]
    by_cases hc : res ≤ |pt.1 - lk.1| ∨ res ≤ |pt.2.1 - lk.2|
    · rw [if_pos hc, List.map_cons]
      exact List.Chain.cons hc (ih _)
    · rw [if_neg hc]
      exact ih lk

theorem filterPrKeep_id_of_chain (res : ℚ) (pts : List (ℚ × ℚ × ℚ)) :
    ∀ lk, List.Chain (farApart res) lk (pts.map projPR) →
      filterPrKeep res lk pts = pts := by
  induction pts with
  | nil => intro lk _; rw [filterPrKeep]
  | cons pt rest ih =>
    intro lk hch
    rw [List.map_cons, List.chain_cons] at hch
    have h1 : res ≤ |pt.1 - lk.1| ∨ res ≤ |pt.2.1 - lk.2| := hch.1
    rw [filterPrKeep, if_pos h1]
    exact congrArg (pt :: ·) (ih (pt.1, pt.2.1) hch.2)

theorem filterPrSpec_idem (res : ℚ) (pts : List (ℚ × ℚ × ℚ)) :
    filterPrSpec res (filterPrSpec res pts) = filterPrSpec res pts := by
  cases pts with
  | nil => rfl
  | cons pt rest =>
    rw [filterPrSpec, filterPrSpec]
    rw [filterPrKeep_id_of_chain res _ _ (filterPrKeep_chain res rest _)]

/-- Claim C6: curve compaction keeps a point iff it is the first point or
its precision or recall differs from the precision/recall of the last kept
point by at least ε: the loop of `filter_pr_curve` computes exactly the
spec recursion `filterPrSpec` stating that rule, the kept points form a
subsequence of the input (so they retain their original values, relative
order, and each keeps its own threshold), and the first point is always
kept. -/
theorem filter_pr_curve_keep_rule (ps rs ts : List ℚ) (res : ℚ) :
    filter_pr_curve ps rs ts res = unzip3 (filterPrSpec res (zip3 ps rs ts)) ∧
    (filterPrSpec res (zip3 ps rs ts)).Sublist (zip3 ps rs ts) ∧
    (∀ pt pts', zip3 ps rs ts = pt :: pts' →
      (filterPrSpec res (zip3 ps rs ts)).head? = some pt) := by
  refine ⟨filter_pr_curve_eq_spec ps rs ts res,
    filterPrSpec_sublist res _, ?_⟩
  intro pt pts' heq
  rw [heq, filterPrSpec]
  rfl

/-- Witness for C6 at a concrete curve. -/
theorem filter_pr_curve_keep_rule_witness :
    (filterPrSpec 1 (zip3 [3, 7] [4, 8] [5, 9])).head? = some ((3 : ℚ), (4 : ℚ), (5 : ℚ)) :=
  (filter_pr_curve_keep_rule [3, 7] [4, 8] [5, 9] 1).2.2
    ((3 : ℚ), (4 : ℚ), (5 : ℚ)) [((7 : ℚ), (8 : ℚ), (9 : ℚ))] (by decide)

/-- Claim C7: curve filtering is idempotent — re-filtering an already
filtered curve with the same resolution returns it unchanged. -/
theorem filter_pr_curve_idempotent (ps rs ts : List ℚ) (res : ℚ) :
    filter_pr_curve (filter_pr_curve ps rs ts res).1
        (filter_pr_curve ps rs ts res).2.1
        (filter_pr_curve ps rs ts res).2.2 res
      = filter_pr_curve ps rs ts res := by
  rw [filter_pr_curve_eq_spec ps rs ts res, filter_pr_curve_eq_spec,
    zip3_unzip3, filterPrSpec_idem]

/-- Modelled from the spec: the source calls the external library function
`sklearn.metrics.precision_recall_curve(y_true, probas_pred)`, whose code
is not part of this repository; §9 of the spec gives the standard
definition to use — sort distinct score thresholds descending, compute
cumulative true/false positives at each threshold (a prediction is positive
at threshold t when its score is ≥ t), precision = TP/(TP+FP), recall =
TP/(total positives), and append the synthetic trailing point at
precision 1, recall 0 that has no matching threshold. Division by zero
yields the ℚ junk value 0, standing in for the IEEE NaN the spec allows. -/
def precision_recall_curve (y_true : List Bool) (probas_pred : List ℚ) :
    List ℚ × List ℚ × List ℚ :=
  let pairs := y_true.zip probas_pred
  let thresholds := List.insertionSort (fun a b => b ≤ a) probas_pred.dedup
  let tp := fun t => ((pairs.filter (fun x => x.1 && decide (t ≤ x.2))).length : ℚ)
  let fp := fun t => ((pairs.filter (fun x => !x.1 && decide (t ≤ x.2))).length : ℚ)
  let totalPos := ((pairs.filter (fun x => x.1)).length : ℚ)
  (thresholds.map (fun t => tp t / (tp t + fp t)) ++ [1],
   thresholds.map (fun t => tp t / totalPos) ++ [0],
   thresholds)

/-- The per-group body of `get_pr_curve_df` (src/colab_evaluation.py:175-181):
compute the precision-recall curve of the group's gt and value columns,
drop the final synthetic point from precisions and recalls, and filter the
curve when requested (the source default resolution is 1e-3; it is passed
explicitly here). -/
def group_pr_points (group : List CombinedRow) (filtered : Bool)
    (resolution : ℚ) : List ℚ × List ℚ × List ℚ :=
  let pr := precision_recall_curve (group.map CombinedRow.gt)
    (group.map CombinedRow.value)
  let precisions := pr.1.dropLast
  let recalls := pr.2.1.dropLast
  let thresholds := pr.2.2
  if filtered then filter_pr_curve precisions recalls thresholds resolution
  else (precisions, recalls, thresholds)

theorem filter_pr_curve_lengths (ps rs ts : List ℚ) (res : ℚ) :
    (filter_pr_curve ps rs ts res).1.length
        = (filter_pr_curve ps rs ts res).2.1.length ∧
      (filter_pr_curve ps rs ts res).2.1.length
        = (filter_pr_curve ps rs ts res).2.2.length := by
  unfold filter_pr_curve
  exact ⟨by rw [(unzip3_lengths _).1, (unzip3_lengths _).2.1],
    by rw [(unzip3_lengths _).2.1, (unzip3_lengths _).2.2]⟩

theorem group_pr_points_unfiltered_lengths (group : List CombinedRow)
    (resolution : ℚ) :
    (group_pr_points group false resolution).1.length
        = (group.map CombinedRow.value).dedup.length ∧
      (group_pr_points group false resolution).2.1.length
        = (group.map CombinedRow.value).dedup.length ∧
      (group_pr_points group false resolution).2.2.length
        = (group.map CombinedRow.value).dedup.length := by
  unfold group_pr_points precision_recall_curve
  rw [if_neg (by simp : ¬((false : Bool) = true))]
  simp only [List.dropLast_concat, List.length_map, List.length_insertionSort]
  exact ⟨trivial, trivial, trivial⟩

theorem group_pr_points_filtered_eq (group : List CombinedRow)
    (resolution : ℚ) :
    group_pr_points group true resolution
      = filter_pr_curve (group_pr_points group false resolution).1
          (group_pr_points group false resolution).2.1
          (group_pr_points group false resolution).2.2 resolution := by
  unfold group_pr_points
  rw [if_pos rfl, if_neg (by simp : ¬((false : Bool) = true))]

/-- Claim C8: the synthetic final precision-recall point is dropped before
filtering and output, so for every group the emitted precision, recall and
threshold sequences have one common length; without filtering that length
equals the number of distinct score thresholds of the group. -/
theorem curve_drops_synthetic_point (group : List CombinedRow)
    (filtered : Bool) (resolution : ℚ) :
    ((group_pr_points group filtered resolution).1.length
        = (group_pr_points group filtered resolution).2.1.length ∧
      (group_pr_points group filtered resolution).2.1.length
        = (group_pr_points group filtered resolution).2.2.length) ∧
    (group_pr_points group false resolution).2.2.length
      = (group.map CombinedRow.value).dedup.length := by
  have h0 := group_pr_points_unfiltered_lengths group resolution
  refine ⟨?_, h0.2.2⟩
  cases filtered with
  | false => exact ⟨h0.1.trans h0.2.1.symm, h0.2.1.trans h0.2.2.symm⟩
  | true =>
    rw [group_pr_points_filtered_eq group resolution]
    exact filter_pr_curve_lengths _ _ _ _

/-- A row of the precision-recall curve dataframe
(src/colab_evaluation.py:182-194). -/
structure CurvePoint where
  group : String
  precision : ℚ
  «recall» : ℚ
  threshold : ℚ
  f1 : ℚ
deriving DecidableEq

/-- Embedding of lines 169-170 of src/colab_evaluation.py:
`combined['group'] = combined['label'].map(grouping)` followed by
`combined.groupby('group')`. A label absent from the grouping dictionary
maps to NaN, and pandas `groupby` silently drops rows whose key is NaN, so
each produced group holds exactly the rows whose label maps to its key.
(Pandas sorts group keys; key order is irrelevant to the claims and the
model lists keys in first-appearance order.) -/
def groupby_label (combined : List CombinedRow)
    (grouping : String → Option String) : List (String × List CombinedRow) :=
  ((combined.filterMap (fun r => grouping r.label)).dedup).map
    (fun k => (k, combined.filter (fun r => decide (grouping r.label = some k))))

/-- The curve dataframe rows emitted for one group
(src/colab_evaluation.py:182-194): one row per surviving curve point,
tagged with the group name, with f1 = 2·p·r/(p+r) (the ℚ division junk
value 0 at p+r = 0 stands in for the IEEE NaN/inf the source produces). -/
def curve_rows (group_name : String) (group : List CombinedRow)
    (filtered : Bool) (resolution : ℚ) : List CurvePoint :=
  let pr := group_pr_points group filtered resolution
  (zip3 pr.1 pr.2.1 pr.2.2).map
    (fun pt => ⟨group_name, pt.1, pt.2.1, pt.2.2,
      2 * pt.1 * pt.2.1 / (pt.1 + pt.2.1)⟩)

/-- Embedding of `get_pr_curve_df` (src/colab_evaluation.py:152-195):
merge predictions and ground truth, build the group list — the single
group 'all' when no grouping is given, otherwise the pandas groupby —
and concatenate the per-group curve dataframes. -/
def get_pr_curve_df (predictions_df : List TidyPred)
    (ground_truth_df : List TidyGt)
    (grouping : Option (String → Option String)) (filtered : Bool)
    (resolution : ℚ) : List CurvePoint :=
  let combined := merge_predictions_and_ground_truth predictions_df
    ground_truth_df
  let to_process : List (String × List CombinedRow) :=
    match grouping with
    | none => [("all", combined)]
    | some g => groupby_label combined g
  to_process.flatMap (fun gr => curve_rows gr.1 gr.2 filtered resolution)

theorem filterMap_filter_isSome (f : CombinedRow → Option String)
    (rows : List CombinedRow) :
    (rows.filter (fun r => (f r).isSome)).filterMap f = rows.filterMap f := by
  induction rows with
  | nil => rfl
  | cons r rest ih =>
    rw [List.filter_cons]
    cases hf : f r with
    | none =>
      rw [if_neg (by simp [hf])]
      rw [List.filterMap_cons, hf, ih]
    | some v =>
      rw [if_pos (by simp [hf])]
      rw [List.filterMap_cons, List.filterMap_cons, hf, ih]

/-- Claim C9: when a grouping mapping is supplied, every aligned row whose
label is not a key of the mapping is silently excluded: it belongs to no
produced group (every row of every group has a mapped label), and the
groupby result is unchanged when unmapped rows are deleted beforehand, so
such rows contribute to no group's curve and produce no output row; the
embedding is a total function, so no error is raised. -/
theorem grouping_drops_unmapped_rows (rows : List CombinedRow)
    (grouping : String → Option String) :
    (∀ gr ∈ groupby_label rows grouping, ∀ r ∈ gr.2,
      (grouping r.label).isSome = true) ∧
    groupby_label (rows.filter (fun r => (grouping r.label).isSome)) grouping
      = groupby_label rows grouping := by
  constructor
  · intro gr hgr r hr
    unfold groupby_label at hgr
    rcases List.mem_map.mp hgr with ⟨k, _, rfl⟩
    rcases List.mem_filter.mp hr with ⟨_, hcond⟩
    rw [of_decide_eq_true hcond]
    rfl
  · unfold groupby_label
    rw [filterMap_filter_isSome]
    apply List.map_congr_left
    intro k _
    congr 1
    rw [List.filter_filter]
    apply List.filter_congr
    intro r _
    cases hf : grouping r.label with
    | none => simp [hf]
    | some v => simp [hf]

/-- Witness for C9: with grouping {A ↦ g1}, the row labelled B is dropped,
the only group is g1 containing only the A row, and every row kept in a
group has a mapped label. -/
theorem grouping_drops_unmapped_rows_witness :
    (∀ r ∈ (("g1", [⟨"s", "A", 5, true⟩]) : String × List CombinedRow).2,
      ((fun l => if l = "A" then some "g1" else none) r.label).isSome = true) :=
  (grouping_drops_unmapped_rows
    [⟨"s", "A", 5, true⟩, ⟨"s", "B", 7, false⟩]
    (fun l => if l = "A" then some "g1" else none)).1
    ("g1", [⟨"s", "A", 5, true⟩]) (by decide)
